import Mathlib

/-!
Verification of the GoCommit commit-log storage engine (store, index, segment)
against its natural-language specification.  The Go code is shallowly embedded:
files and memory-mapped regions are byte lists (each byte a natural number),
unsigned 64-bit and 32-bit machine arithmetic is modelled on natural numbers
with explicit reduction modulo 2^64 / 2^32 exactly where the Go code can wrap
or truncate, and fallible operations return an explicit error value mirroring
the io.EOF the Go code produces.
-/

namespace KLog

/-- Machine-word bound 2^32 (range of Go uint32). -/
def U32 : Nat := 2 ^ 32

/-- Machine-word bound 2^64 (range of Go uint64). -/
def U64 : Nat := 2 ^ 64

/-- Go uint64 subtraction a - b, which wraps modulo 2^64. -/
def u64sub (a b : Nat) : Nat := (a + U64 - b % U64) % U64

/-- Go conversion uint32(x) of a uint64 value: truncation to the low 32 bits. -/
def u32of (n : Nat) : Nat := n % U32

/-- Go conversion uint32(x) of an int64 value: the low 32 bits of the
two's-complement representation, i.e. x mod 2^32. -/
def u32ofInt (x : Int) : Nat := (x % (U32 : Int)).toNat

/-- Go conversion int64(x) of a uint64 value: reinterpret the 64-bit pattern
as a signed two's-complement integer. -/
def toInt64 (n : Nat) : Int :=
  if n % U64 < 2 ^ 63 then ((n % U64 : Nat) : Int)
  else ((n % U64 : Nat) : Int) - (U64 : Int)

/-- Big-endian bytes of a number, w bytes wide (encoding/binary PutUint32,
PutUint64 and binary.Write with binary.BigEndian). -/
def beBytes : Nat → Nat → List Nat
  | 0, _ => []
  | w + 1, n => beBytes w (n / 256) ++ [n % 256]

/-- Value of a big-endian byte string (encoding/binary Uint32 / Uint64). -/
def beVal : List Nat → Nat
  | [] => 0
  | b :: bs => b * 256 ^ bs.length + beVal bs

/-- Read k bytes of a byte list starting at position pos (a slice l[pos:pos+k]). -/
def readBytes (l : List Nat) (pos k : Nat) : List Nat := (l.drop pos).take k

/-- Overwrite the bytes of l starting at position pos with bs (writing into a
slice l[pos:pos+len(bs)]). -/
def writeBytes (l : List Nat) (pos : Nat) (bs : List Nat) : List Nat :=
  l.take pos ++ bs ++ l.drop (pos + bs.length)

/-- Resize a byte file to exactly n bytes, zero-filling any extension
(os.Truncate / File.Truncate semantics). -/
def truncateTo (l : List Nat) (n : Nat) : List Nat :=
  l.take n ++ List.replicate (n - l.length) 0

/-- The single error value the embedded operations produce, modelling io.EOF
(the only error the index returns, and the error ReadAt yields on a short read). -/
inductive GoErr
  | eof
deriving DecidableEq

instance {ε α : Type} [DecidableEq ε] [DecidableEq α] : DecidableEq (Except ε α) := by
  intro x y
  cases x <;> cases y
  case error.error a b =>
    exact if h : a = b then isTrue (by rw [h]) else isFalse (by intro hc; cases hc; exact h rfl)
  case error.ok a b => exact isFalse (by intro hc; cases hc)
  case ok.error a b => exact isFalse (by intro hc; cases hc)
  case ok.ok a b =>
    exact if h : a = b then isTrue (by rw [h]) else isFalse (by intro hc; cases hc; exact h rfl)

/-- Width constants of the index entry layout (offWidth, posWidth, entWidth). -/
def offWidth : Nat := 4

/-- Width of the position field of an index entry. -/
def posWidth : Nat := 8

/-- Width of one full index entry (offWidth + posWidth = 12). -/
def entWidth : Nat := offWidth + posWidth

/-- Width of the length prefix of a store frame (lenWidth). -/
def lenWidth : Nat := 8

/-- The store struct: an append-only byte file plus its size counter.
The buffered writer is invisible in the model: data is the file contents
with all buffered bytes included, since every read path flushes first. -/
structure store where
  size : Nat
  data : List Nat
deriving DecidableEq

/-- newStore: stat the file and record its size. -/
def newStore (file : List Nat) : store :=
  { size := file.length, data := file }

/-- store.Append: write the 8-byte big-endian payload length, then the payload;
return (bytesWritten, position).  Position is the size before the call. -/
def store.Append (s : store) (p : List Nat) : store × Nat × Nat :=
  let pos := s.size
  let w := p.length + lenWidth
  ({ size := s.size + w, data := s.data ++ beBytes 8 p.length ++ p }, w, pos)

/-- store.Read: read the 8-byte length prefix at pos, then that many payload
bytes at pos + 8.  A short read yields io.EOF from ReadAt. -/
def store.Read (s : store) (pos : Nat) : Except GoErr (List Nat) :=
  if pos + lenWidth ≤ s.data.length then
    let L := beVal (readBytes s.data pos lenWidth)
    if pos + lenWidth + L ≤ s.data.length then .ok (readBytes s.data (pos + lenWidth) L)
    else .error .eof
  else .error .eof

/-- The index struct: the memory-mapped byte region and the size (in bytes) of
the valid entries. -/
structure index where
  mmap : List Nat
  size : Nat
deriving DecidableEq

/-- newIndex: record the pre-existing file length as size, then grow (or shrink)
the file to MaxIndexBytes and map it whole. -/
def newIndex (file : List Nat) (maxIndexBytes : Nat) : index :=
  { mmap := truncateTo file maxIndexBytes, size := file.length }

/-- index.Read: in == -1 asks for the last entry.  Mirrors the Go exactly:
the uint64 subtraction (size/entWidth)-1 wraps, the uint32 conversions
truncate, and the two EOF guards are the size == 0 and bounds checks. -/
def index.Read (i : index) (inp : Int) : Except GoErr (Nat × Nat) :=
  if i.size = 0 then .error .eof
  else
    let out := if inp = -1 then u32of (u64sub (i.size / entWidth) 1) else u32ofInt inp
    let pos := out * entWidth
    if i.size < pos + entWidth then .error .eof
    else .ok (beVal (readBytes i.mmap pos offWidth),
              beVal (readBytes i.mmap (pos + offWidth) posWidth))

/-- index.Write: EOF when the mmap cannot hold another entry; otherwise put the
4-byte offset then the 8-byte position at the end and bump size by entWidth.
The pair returns the (possibly) mutated index together with the Go error. -/
def index.Write (i : index) (off pos : Nat) : index × Option GoErr :=
  if i.mmap.length < i.size + entWidth then (i, some .eof)
  else
    let m1 := writeBytes i.mmap i.size (beBytes 4 off)
    let m2 := writeBytes m1 (i.size + offWidth) (beBytes 8 pos)
    ({ mmap := m2, size := i.size + entWidth }, none)

/-- index.Close: sync the mmap and file, truncate the file to size bytes and
close it; the result is the on-disk file contents after close. -/
def index.Close (i : index) : List Nat := truncateTo i.mmap i.size

/-- A record as in the api/v1 protobuf: a byte value and a uint64 offset. -/
structure Record where
  value : List Nat
  offset : Nat
deriving DecidableEq

/-- Modelled from the spec: the record codec (proto.Marshal of api/v1 Record,
an external library not under src/).  Per section 4.5 any deterministic
self-delimiting encoding in which all fields round-trip is conformant; we fix
the 8-byte big-endian offset followed by the value bytes. -/
def Record.marshal (r : Record) : List Nat := beBytes 8 r.offset ++ r.value

/-- Modelled from the spec: the record codec decoder (proto.Unmarshal),
inverse of Record.marshal; fails on a malformed (too short) buffer. -/
def Record.unmarshal (p : List Nat) : Except GoErr Record :=
  if lenWidth ≤ p.length then .ok { value := p.drop lenWidth, offset := beVal (p.take lenWidth) }
  else .error .eof

/-- The segment struct: a store and an index under a shared base offset. -/
structure segment where
  store : store
  index : index
  baseOffset : Nat
  nextOffset : Nat
deriving DecidableEq

/-- newSegment: open (or create) the store and index files, then seed
nextOffset from the index's last entry, or from baseOffset when Read(-1)
yields EOF. -/
def newSegment (baseOffset : Nat) (storeFile indexFile : List Nat)
    (maxIndexBytes : Nat) : segment :=
  let str := newStore storeFile
  let idx := newIndex indexFile maxIndexBytes
  let nextOffset :=
    match idx.Read (-1) with
    | .error _ => baseOffset
    | .ok (off, _) => baseOffset + off + 1
  { store := str, index := idx, baseOffset := baseOffset, nextOffset := nextOffset }

/-- segment.Append: stamp the record with nextOffset, marshal it, append the
frame to the store, then write the relative-offset index entry.  When the
index write fails the store mutation has already happened (no rollback). -/
def segment.Append (s : segment) (r : Record) : segment × Except GoErr Nat :=
  let cur := s.nextOffset
  let r2 : Record := { r with offset := cur }
  let p := r2.marshal
  match s.store.Append p with
  | (str2, _, pos) =>
    match s.index.Write (u32of (u64sub s.nextOffset s.baseOffset)) pos with
    | (_, some e) => ({ s with store := str2 }, .error e)
    | (idx2, none) =>
      ({ s with store := str2, index := idx2, nextOffset := s.nextOffset + 1 }, .ok cur)

/-- segment.Read: translate the absolute offset to a relative one with a
wrapping uint64 subtraction reinterpreted as int64, look up the position in
the index, read the frame from the store, and unmarshal. -/
def segment.Read (s : segment) (off : Nat) : Except GoErr Record :=
  match s.index.Read (toInt64 (u64sub off s.baseOffset)) with
  | .error e => .error e
  | .ok (_, pos) =>
    match s.store.Read pos with
    | .error e => .error e
    | .ok p => Record.unmarshal p

/-- nearestMultiple as in segment.go, including the dead signed branch. -/
def nearestMultiple (j k : Nat) : Nat :=
  if 0 ≤ j then j / k * k else (j - k + 1) / k * k

/-- Fixture: a segment over an empty store whose index mmap has length zero,
so the index is permanently full. -/
def fullSeg : segment :=
  { store := { size := 0, data := [] }, index := { mmap := [], size := 0 },
    baseOffset := 0, nextOffset := 0 }

/-- Decoded rel_offset field of the k-th entry of an index mmap. -/
def entryRel (m : List Nat) (k : Nat) : Nat := beVal (readBytes m (k * entWidth) offWidth)

/-- Decoded position field of the k-th entry of an index mmap. -/
def entryPos (m : List Nat) (k : Nat) : Nat :=
  beVal (readBytes m (k * entWidth + offWidth) posWidth)

/-- Total number of store bytes the frames of a list of record values occupy:
each record contributes an 8-byte store length prefix plus the marshalled
record (8 offset bytes plus the value). -/
def framesLen : List (List Nat) → Nat
  | [] => 0
  | v :: vs => 16 + v.length + framesLen vs

/-- Run a sequence of segment.Append calls (one per record value), returning
the final segment together with the result of every call in order. -/
def appendAllR : segment → List (List Nat) → segment × List (Except GoErr Nat)
  | s, [] => (s, [])
  | s, v :: vs =>
    let p := s.Append { value := v, offset := 0 }
    let q := appendAllR p.1 vs
    (q.1, p.2 :: q.2)

/-- State invariant of a segment that currently holds the record values vs:
the bound conjuncts pin the machine-word ranges (base offset clear of uint64
wrap-around, index mmap small enough that relative offsets fit in uint32),
nextOffset / index size / store size agree with vs, and every index entry k
holds rel_offset k and the store position of the marshalled k-th record. -/
@[reducible] def Inv (s : segment) (vs : List (List Nat)) : Prop :=
  s.baseOffset + U32 ≤ U64 ∧
  s.index.mmap.length ≤ entWidth * U32 ∧
  s.nextOffset = s.baseOffset + vs.length ∧
  s.index.size = vs.length * entWidth ∧
  s.store.size = s.store.data.length ∧
  vs.length ≤ U32 ∧
  ∀ k, (hk : k < vs.length) → entryRel s.index.mmap k = k ∧
    s.store.Read (entryPos s.index.mmap k) =
      .ok (Record.marshal { value := vs.get ⟨k, hk⟩, offset := s.baseOffset + k })

/-! Byte-string lemmas. -/

theorem beBytes_length (w n : Nat) : (beBytes w n).length = w := by
  induction w generalizing n with
  | zero => rfl
  | succ w ih => simp [beBytes, ih]

theorem beVal_append (l1 l2 : List Nat) :
    beVal (l1 ++ l2) = beVal l1 * 256 ^ l2.length + beVal l2 := by
  induction l1 with
  | nil => simp [beVal]
  | cons b l1 ih =>
    rw [List.cons_append]
    show b * 256 ^ (l1 ++ l2).length + beVal (l1 ++ l2) = _
    rw [ih, List.length_append, pow_add,
      show beVal (b :: l1) = b * 256 ^ l1.length + beVal l1 from rfl]
    ring

theorem beVal_beBytes (w n : Nat) : beVal (beBytes w n) = n % 256 ^ w := by
  induction w generalizing n with
  | zero => simp [beBytes, beVal, Nat.mod_one]
  | succ w ih =>
    rw [beBytes, beVal_append, ih]
    show _ = n % 256 ^ (w + 1)
    rw [pow_succ, Nat.mul_comm (256 ^ w) 256, Nat.mod_mul]
    simp only [beVal, List.length_cons, List.length_nil, pow_zero, mul_one, pow_one, add_zero]
    ring

theorem readBytes_length (l : List Nat) (pos k : Nat) (h : pos + k ≤ l.length) :
    (readBytes l pos k).length = k := by
  simp only [readBytes, List.length_take, List.length_drop]
  omega

theorem readBytes_append_left (l1 l2 : List Nat) (pos k : Nat) (h : pos + k ≤ l1.length) :
    readBytes (l1 ++ l2) pos k = readBytes l1 pos k := by
  unfold readBytes
  rw [List.drop_append_of_le_length (by omega), List.take_append_of_le_length]
  simp only [List.length_drop]
  omega

theorem readBytes_append_exact (l1 l2 : List Nat) (k : Nat) :
    readBytes (l1 ++ l2) l1.length k = l2.take k := by
  unfold readBytes
  rw [List.drop_left]

theorem writeBytes_length (l bs : List Nat) (pos : Nat) (h : pos + bs.length ≤ l.length) :
    (writeBytes l pos bs).length = l.length := by
  simp only [writeBytes, List.length_append, List.length_take, List.length_drop]
  omega

theorem readBytes_writeBytes_before (l bs : List Nat) (pos q k : Nat)
    (h : q + k ≤ pos) (hp : pos ≤ l.length) :
    readBytes (writeBytes l pos bs) q k = readBytes l q k := by
  unfold writeBytes
  rw [List.append_assoc, readBytes_append_left _ _ _ _ (by simp; omega)]
  unfold readBytes
  rw [List.drop_take, List.take_take]
  congr 1
  omega

theorem readBytes_writeBytes_at (l bs : List Nat) (pos : Nat) (hp : pos ≤ l.length) :
    readBytes (writeBytes l pos bs) pos bs.length = bs := by
  unfold writeBytes readBytes
  rw [List.append_assoc, List.drop_append_of_le_length (by simp; omega)]
  simp [List.drop_take, List.take_left]

theorem truncateTo_length (l : List Nat) (n : Nat) : (truncateTo l n).length = n := by
  simp only [truncateTo, List.length_append, List.length_take, List.length_replicate]
  omega

theorem readBytes_truncateTo (l : List Nat) (n pos k : Nat) (h : pos + k ≤ l.length)
    (hn : l.length ≤ n) :
    readBytes (truncateTo l n) pos k = readBytes l pos k := by
  unfold truncateTo
  rw [List.take_of_length_le hn, readBytes_append_left _ _ _ _ h]

/-! Machine-arithmetic lemmas. -/

theorem U32_eq : U32 = 4294967296 := by norm_num [U32]

theorem U64_eq : U64 = 18446744073709551616 := by norm_num [U64]

theorem pow256_4 : (256 : Nat) ^ 4 = U32 := by norm_num [U32]

theorem pow256_8 : (256 : Nat) ^ 8 = U64 := by norm_num [U64]

theorem u64sub_of_le (a b : Nat) (h : b ≤ a) (ha : a < U64) : u64sub a b = a - b := by
  unfold u64sub
  rw [U64_eq] at ha ⊢
  omega

theorem u64sub_pred (b : Nat) (h1 : 1 ≤ b) (hb : b < U64) : u64sub (b - 1) b = U64 - 1 := by
  unfold u64sub
  rw [U64_eq] at hb ⊢
  omega

theorem toInt64_small (n : Nat) (h : n < 2 ^ 63) : toInt64 n = (n : Int) := by
  unfold toInt64
  rw [Nat.mod_eq_of_lt (lt_trans h (by norm_num [U64]))]
  rw [if_pos h]

theorem toInt64_last : toInt64 (U64 - 1) = -1 := by decide

theorem u32of_small (n : Nat) (h : n < U32) : u32of n = n := Nat.mod_eq_of_lt h

theorem u32ofInt_ofNat (n : Nat) (h : n < U32) : u32ofInt ((n : Nat) : Int) = n := by
  unfold u32ofInt
  rw [Int.emod_eq_of_lt (by positivity) (by exact_mod_cast h)]
  exact Int.toNat_natCast n

theorem beVal_beBytes_4 (n : Nat) (h : n < U32) : beVal (beBytes 4 n) = n := by
  rw [beVal_beBytes, pow256_4, Nat.mod_eq_of_lt h]

theorem beVal_beBytes_8 (n : Nat) (h : n < U64) : beVal (beBytes 8 n) = n := by
  rw [beVal_beBytes, pow256_8, Nat.mod_eq_of_lt h]

/-! Codec and store lemmas. -/

theorem unmarshal_marshal (r : Record) (h : r.offset < U64) :
    Record.unmarshal r.marshal = .ok r := by
  obtain ⟨v, off⟩ := r
  unfold Record.marshal Record.unmarshal
  have hlen : (beBytes 8 off).length = 8 := beBytes_length 8 off
  have hle : lenWidth ≤ (beBytes 8 off ++ v).length := by
    simp [List.length_append, hlen, lenWidth]
  rw [if_pos hle]
  have ht : (beBytes 8 off ++ v).take lenWidth = beBytes 8 off := by
    show (beBytes 8 off ++ v).take 8 = beBytes 8 off
    rw [List.take_append_of_le_length (by omega), List.take_of_length_le (by omega)]
  have hd : (beBytes 8 off ++ v).drop lenWidth = v := by
    show (beBytes 8 off ++ v).drop 8 = v
    rw [List.drop_append_of_le_length (by omega), List.drop_eq_nil_of_le (by omega),
      List.nil_append]
  rw [ht, hd, beVal_beBytes_8 off h]

theorem store_Read_append (d ext : List Nat) (sz sz2 pos : Nat) (r : List Nat)
    (h : store.Read { size := sz, data := d } pos = .ok r) :
    store.Read { size := sz2, data := d ++ ext } pos = .ok r := by
  unfold store.Read at h ⊢
  by_cases h8 : pos + lenWidth ≤ d.length
  · rw [if_pos h8] at h
    have h8' : pos + lenWidth ≤ (d ++ ext).length := by
      simp only [List.length_append]; omega
    rw [if_pos h8']
    simp only [readBytes_append_left d ext pos lenWidth h8]
    by_cases hL : pos + lenWidth + beVal (readBytes d pos lenWidth) ≤ d.length
    · rw [if_pos hL] at h
      rw [if_pos (by simp only [List.length_append]; omega)]
      rw [readBytes_append_left d ext _ _ hL]
      exact h
    · rw [if_neg hL] at h
      exact absurd h (by simp)
  · rw [if_neg h8] at h
    exact absurd h (by simp)

/-- Reading the frame appended at the end of the store data. -/
theorem store_Read_last (d p : List Nat) (sz : Nat) (hp : p.length < U64) :
    store.Read { size := sz, data := d ++ beBytes 8 p.length ++ p } d.length = .ok p := by
  unfold store.Read
  dsimp only
  have hlen : (beBytes 8 p.length).length = 8 := beBytes_length 8 p.length
  have hL : (d ++ beBytes 8 p.length ++ p).length = d.length + 8 + p.length := by
    simp only [List.length_append, hlen]
  rw [if_pos (by rw [hL]; simp only [lenWidth]; omega)]
  have hr8 : readBytes (d ++ beBytes 8 p.length ++ p) d.length lenWidth = beBytes 8 p.length := by
    show readBytes (d ++ beBytes 8 p.length ++ p) d.length 8 = beBytes 8 p.length
    rw [List.append_assoc, readBytes_append_exact, List.take_append_of_le_length (by omega),
      List.take_of_length_le (by omega)]
  rw [hr8, beVal_beBytes_8 p.length hp]
  rw [if_pos (by rw [hL]; simp only [lenWidth]; omega)]
  have hrp : readBytes (d ++ beBytes 8 p.length ++ p) (d.length + lenWidth) p.length = p := by
    show readBytes ((d ++ beBytes 8 p.length) ++ p) (d.length + 8) p.length = p
    have h2 : d.length + 8 = (d ++ beBytes 8 p.length).length := by
      simp only [List.length_append, hlen]
    rw [h2, readBytes_append_exact, List.take_of_length_le (by omega)]
  rw [hrp]

/-! Reduction lemmas for segment.Append and index.Read. -/

theorem u32ofInt_natCast (k : Nat) (h : k < U32) : u32ofInt (k : Int) = k := by
  unfold u32ofInt
  rw [Int.emod_eq_of_lt (Int.natCast_nonneg k) (by exact_mod_cast h)]
  exact Int.toNat_natCast k

theorem segment_Append_full_eq (s : segment) (r : Record)
    (hfull : s.index.mmap.length < s.index.size + entWidth) :
    s.Append r =
      ({ s with store :=
        { size := s.store.size + ((Record.marshal { r with offset := s.nextOffset }).length +
            lenWidth),
          data := s.store.data ++
            beBytes 8 (Record.marshal { r with offset := s.nextOffset }).length ++
            Record.marshal { r with offset := s.nextOffset } } }, .error .eof) := by
  unfold segment.Append store.Append
  dsimp only
  rw [show s.index.Write (u32of (u64sub s.nextOffset s.baseOffset)) s.store.size =
      (s.index, some .eof) from by unfold index.Write; rw [if_pos hfull]]

theorem segment_Append_success_eq (s : segment) (r : Record)
    (hroom : s.index.size + entWidth ≤ s.index.mmap.length) :
    s.Append r =
      ({ store :=
           { size := s.store.size + ((Record.marshal { r with offset := s.nextOffset }).length +
               lenWidth),
             data := s.store.data ++
               beBytes 8 (Record.marshal { r with offset := s.nextOffset }).length ++
               Record.marshal { r with offset := s.nextOffset } },
         index :=
           { mmap := writeBytes (writeBytes s.index.mmap s.index.size
                 (beBytes 4 (u32of (u64sub s.nextOffset s.baseOffset))))
                 (s.index.size + offWidth) (beBytes 8 s.store.size),
             size := s.index.size + entWidth },
         baseOffset := s.baseOffset,
         nextOffset := s.nextOffset + 1 }, .ok s.nextOffset) := by
  unfold segment.Append store.Append
  dsimp only
  rw [show s.index.Write (u32of (u64sub s.nextOffset s.baseOffset)) s.store.size =
      ({ mmap := writeBytes (writeBytes s.index.mmap s.index.size
             (beBytes 4 (u32of (u64sub s.nextOffset s.baseOffset))))
             (s.index.size + offWidth) (beBytes 8 s.store.size),
         size := s.index.size + entWidth }, none) from by
    unfold index.Write; rw [if_neg (by omega)]]

theorem index_Read_nonneg (i : index) (k : Nat) (hks : k * entWidth + entWidth ≤ i.size)
    (hk32 : k < U32) :
    i.Read (k : Int) = .ok (entryRel i.mmap k, entryPos i.mmap k) := by
  have he : entWidth = 12 := rfl
  unfold index.Read
  rw [if_neg (show ¬(i.size = 0) from by rw [he] at hks; omega)]
  rw [if_neg (show ¬((k : Int) = -1) from by omega)]
  rw [u32ofInt_natCast k hk32]
  rw [if_neg (show ¬(i.size < k * entWidth + entWidth) from by omega)]
  rfl

theorem index_Read_neg_one (i : index) (n : Nat) (hsz : i.size = n * entWidth)
    (h1 : 1 ≤ n) (hn : n ≤ U32) :
    i.Read (-1) = .ok (entryRel i.mmap (n - 1), entryPos i.mmap (n - 1)) := by
  have he : entWidth = 12 := rfl
  have h32 := U32_eq
  have h64 := U64_eq
  unfold index.Read
  rw [if_neg (show ¬(i.size = 0) from by rw [he] at hsz; omega)]
  rw [if_pos rfl]
  rw [hsz, show n * entWidth / entWidth = n from by rw [he]; omega]
  rw [u64sub_of_le n 1 h1 (by omega), show u32of (n - 1) = n - 1 from
    u32of_small _ (by omega)]
  rw [if_neg (show ¬(n * entWidth < (n - 1) * entWidth + entWidth) from by rw [he]; omega)]
  rfl

/-- One successful segment.Append preserves the segment invariant and returns
the next free offset; it also leaves the base offset and the mmap capacity
unchanged and grows the store file by the frame size. -/
theorem Append_step (s : segment) (vs : List (List Nat)) (v : List Nat) (off0 : Nat)
    (h : Inv s vs)
    (hroom : s.index.size + entWidth ≤ s.index.mmap.length)
    (hfit : s.store.data.length + (16 + v.length) ≤ U64) :
    (s.Append { value := v, offset := off0 }).2 = .ok (s.baseOffset + vs.length) ∧
    Inv (s.Append { value := v, offset := off0 }).1 (vs ++ [v]) ∧
    (s.Append { value := v, offset := off0 }).1.baseOffset = s.baseOffset ∧
    (s.Append { value := v, offset := off0 }).1.index.mmap.length = s.index.mmap.length ∧
    (s.Append { value := v, offset := off0 }).1.store.data.length =
      s.store.data.length + (16 + v.length) := by
  obtain ⟨hb, hm, hn, hsz, hst, hlen, hent⟩ := h
  have he : entWidth = 12 := rfl
  have ho : offWidth = 4 := rfl
  have hp8 : posWidth = 8 := rfl
  have hlw : lenWidth = 8 := rfl
  have h32 := U32_eq
  have h64 := U64_eq
  have hsz12 : s.index.size = vs.length * 12 := by rw [hsz, he]
  have hroom12 : s.index.size + 12 ≤ s.index.mmap.length := by rw [← he]; exact hroom
  have hm12 : s.index.mmap.length ≤ 12 * U32 := by
    have := hm
    rw [he] at this
    exact this
  have hnlt : vs.length < U32 := by omega
  have hb64 : s.baseOffset + vs.length < U64 := by omega
  have hrel : u32of (u64sub s.nextOffset s.baseOffset) = vs.length := by
    rw [hn, u64sub_of_le _ _ (Nat.le_add_right _ _) hb64, Nat.add_sub_cancel_left]
    exact u32of_small _ hnlt
  have hmar : (Record.marshal { value := v, offset := s.nextOffset } : List Nat).length =
      8 + v.length := by
    unfold Record.marshal
    rw [List.length_append, beBytes_length]
  rw [segment_Append_success_eq s { value := v, offset := off0 } hroom]
  dsimp only
  rw [hrel]
  have h4l : (beBytes 4 vs.length).length = 4 := beBytes_length _ _
  have h8l : (beBytes 8 s.store.size).length = 8 := beBytes_length _ _
  have hm1len : (writeBytes s.index.mmap s.index.size (beBytes 4 vs.length)).length =
      s.index.mmap.length := writeBytes_length _ _ _ (by omega)
  have hm2len : (writeBytes (writeBytes s.index.mmap s.index.size (beBytes 4 vs.length))
      (s.index.size + offWidth) (beBytes 8 s.store.size)).length = s.index.mmap.length := by
    rw [writeBytes_length _ _ _ (by rw [hm1len]; simp only [ho]; omega), hm1len]
  refine ⟨by rw [hn], ?_, rfl, hm2len, ?_⟩
  swap
  · simp only [List.length_append, hmar, beBytes_length]
    omega
  refine ⟨hb, by rw [hm2len]; exact hm, ?_, ?_, ?_, ?_, ?_⟩
  · simp only [List.length_append, List.length_singleton]
    omega
  · simp only [List.length_append, List.length_singleton, he]
    omega
  · simp only [List.length_append, hmar, beBytes_length]
    omega
  · simp only [List.length_append, List.length_singleton]
    omega
  · intro k hk
    have hklen1 : k < vs.length + 1 := by
      simpa using hk
    by_cases hkl : k < vs.length
    · obtain ⟨hrelk, hreadk⟩ := hent k hkl
      have hkb : k * 12 + 12 ≤ s.index.size := by omega
      constructor
      · show beVal (readBytes (writeBytes (writeBytes s.index.mmap s.index.size
          (beBytes 4 vs.length)) (s.index.size + offWidth) (beBytes 8 s.store.size))
          (k * entWidth) offWidth) = k
        rw [readBytes_writeBytes_before _ _ _ _ _ (by simp only [he, ho]; omega)
            (by rw [hm1len]; simp only [ho]; omega),
          readBytes_writeBytes_before _ _ _ _ _ (by simp only [he, ho]; omega) (by omega)]
        exact hrelk
      · have hpk : entryPos (writeBytes (writeBytes s.index.mmap s.index.size
            (beBytes 4 vs.length)) (s.index.size + offWidth) (beBytes 8 s.store.size)) k =
            entryPos s.index.mmap k := by
          unfold entryPos
          rw [readBytes_writeBytes_before _ _ _ _ _ (by simp only [he, ho, hp8]; omega)
              (by rw [hm1len]; simp only [ho]; omega),
            readBytes_writeBytes_before _ _ _ _ _ (by simp only [he, ho, hp8]; omega)
              (by omega)]
        rw [hpk]
        rw [show (vs ++ [v]).get ⟨k, hk⟩ = vs.get ⟨k, hkl⟩ from List.get_append k hkl]
        rw [List.append_assoc]
        exact store_Read_append s.store.data _ s.store.size _ _ _ hreadk
    · have hkeq : k = vs.length := by omega
      subst hkeq
      constructor
      · show beVal (readBytes (writeBytes (writeBytes s.index.mmap s.index.size
          (beBytes 4 vs.length)) (s.index.size + offWidth) (beBytes 8 s.store.size))
          (vs.length * entWidth) offWidth) = vs.length
        rw [show vs.length * entWidth = s.index.size from hsz.symm]
        rw [readBytes_writeBytes_before _ _ _ _ _ (by simp only [ho]; omega)
            (by rw [hm1len]; simp only [ho]; omega),
          show offWidth = (beBytes 4 vs.length).length from by rw [h4l, ho],
          readBytes_writeBytes_at _ _ _ (by omega)]
        exact beVal_beBytes_4 vs.length hnlt
      · have hpk : entryPos (writeBytes (writeBytes s.index.mmap s.index.size
            (beBytes 4 vs.length)) (s.index.size + offWidth) (beBytes 8 s.store.size))
            vs.length = s.store.size := by
          unfold entryPos
          rw [show vs.length * entWidth + offWidth = s.index.size + offWidth from by rw [hsz],
            show posWidth = (beBytes 8 s.store.size).length from by rw [h8l, hp8],
            readBytes_writeBytes_at _ _ _ (by rw [hm1len]; simp only [ho]; omega)]
          exact beVal_beBytes_8 _ (by omega)
        rw [hpk, hst]
        rw [show (vs ++ [v]).get ⟨vs.length, hk⟩ = v from by
          rw [List.get_eq_getElem]
          exact List.getElem_concat_length vs v vs.length rfl (by simp)]
        rw [show s.baseOffset + vs.length = s.nextOffset from hn.symm]
        exact store_Read_last s.store.data _ _ (by rw [hmar]; omega)

/-- Running a list of appends from a state satisfying the invariant: every
append succeeds returning consecutive offsets, and the invariant holds of the
final state, provided the index has room for all entries and the store file
stays within the uint64 position space. -/
theorem appendAll_inv (vs : List (List Nat)) :
    ∀ (vs0 : List (List Nat)) (s : segment), Inv s vs0 →
      (vs0.length + vs.length) * entWidth ≤ s.index.mmap.length →
      s.store.data.length + framesLen vs ≤ U64 →
      (appendAllR s vs).2 =
        (List.range vs.length).map (fun i => Except.ok (s.baseOffset + vs0.length + i)) ∧
      Inv (appendAllR s vs).1 (vs0 ++ vs) ∧
      (appendAllR s vs).1.baseOffset = s.baseOffset := by
  induction vs with
  | nil =>
    intro vs0 s h _ _
    refine ⟨rfl, ?_, rfl⟩
    rw [List.append_nil]
    exact h
  | cons v vs ih =>
    intro vs0 s h hroom hfit
    have he : entWidth = 12 := rfl
    have hframes : framesLen (v :: vs) = 16 + v.length + framesLen vs := rfl
    have hstep := Append_step s vs0 v 0 h
      (by
        have hsz := h.2.2.2.1
        simp only [he] at hsz ⊢
        simp only [List.length_cons, he] at hroom
        omega)
      (by omega)
    obtain ⟨hres, hinv1, hbase1, hmmap1, hdata1⟩ := hstep
    have hih := ih (vs0 ++ [v]) (s.Append { value := v, offset := 0 }).1 hinv1
      (by
        rw [hmmap1]
        simp only [List.length_append, List.length_singleton]
        simp only [List.length_cons, he] at hroom ⊢
        omega)
      (by
        rw [hdata1]
        omega)
    refine ⟨?_, ?_, ?_⟩
    · show ((s.Append { value := v, offset := 0 }).2 ::
        (appendAllR (s.Append { value := v, offset := 0 }).1 vs).2) = _
      rw [hres, hih.1]
      simp only [List.length_cons]
      rw [List.range_succ_eq_map, List.map_cons, List.map_map]
      congr 1
      apply List.map_congr_left
      intro i _
      simp only [Function.comp, hbase1, List.length_append, List.length_singleton]
      congr 1
      omega
    · have hfin := hih.2.1
      rwa [List.append_assoc, List.singleton_append] at hfin
    · show (appendAllR (s.Append { value := v, offset := 0 }).1 vs).1.baseOffset = s.baseOffset
      rw [hih.2.2, hbase1]

/-- A freshly created segment over empty store and index files satisfies the
invariant for the empty record list. -/
theorem Inv_newSegment (base maxIdx : Nat) (h1 : base + U32 ≤ U64)
    (h2 : maxIdx ≤ entWidth * U32) :
    Inv (newSegment base [] [] maxIdx) [] := by
  have hnext : (newSegment base [] [] maxIdx).nextOffset = base := rfl
  refine ⟨h1, ?_, ?_, rfl, rfl, Nat.zero_le _, ?_⟩
  · show (truncateTo [] maxIdx).length ≤ entWidth * U32
    rw [truncateTo_length]
    exact h2
  · rw [hnext, List.length_nil, Nat.add_zero]
    rfl
  · intro k hk
    exact absurd hk (Nat.not_lt_zero k)

/-- Reading back any held offset from a segment satisfying the invariant. -/
theorem Inv_read (s : segment) (vs : List (List Nat)) (h : Inv s vs) (k : Nat)
    (hk : k < vs.length) :
    s.Read (s.baseOffset + k) = .ok { value := vs.get ⟨k, hk⟩, offset := s.baseOffset + k } := by
  obtain ⟨hb, hm, hn, hsz, hst, hlen, hent⟩ := h
  have he : entWidth = 12 := rfl
  have h32 := U32_eq
  have h64 := U64_eq
  have h63 : (2 : Nat) ^ 63 = 9223372036854775808 := by norm_num
  have hsz12 : s.index.size = vs.length * 12 := by rw [hsz, he]
  have hk32 : k < U32 := by omega
  have hsub : u64sub (s.baseOffset + k) s.baseOffset = k := by
    rw [u64sub_of_le _ _ (Nat.le_add_right _ _) (by omega), Nat.add_sub_cancel_left]
  have hi64 : toInt64 k = (k : Int) := toInt64_small k (by omega)
  unfold segment.Read
  rw [hsub, hi64]
  rw [index_Read_nonneg s.index k (by simp only [he]; omega) hk32]
  dsimp only
  obtain ⟨hrelk, hreadk⟩ := hent k hk
  rw [hreadk]
  dsimp only
  rw [unmarshal_marshal _ (by dsimp only; omega)]

/-! Claim theorems. -/

/-- C10: for every uint64 j and every k > 0, nearestMultiple j k equals
(j / k) * k; since j is unsigned the guard j >= 0 always takes the first
branch and the signed branch is dead. -/
theorem nearestMultiple_eq_div_mul (j k : Nat) (_hk : 0 < k) :
    nearestMultiple j k = j / k * k := by
  unfold nearestMultiple
  rw [if_pos (Nat.zero_le j)]

/-- Witness for C10 at j = 7, k = 3. -/
theorem nearestMultiple_eq_div_mul_witness :
    0 < 3 ∧ nearestMultiple 7 3 = 7 / 3 * 3 :=
  ⟨by decide, nearestMultiple_eq_div_mul 7 3 (by decide)⟩

/-- C2: store.Append returns bytesWritten = len p + 8 and position equal to the
size before the call, grows size by exactly len p + 8, and appends to the file
an 8-byte big-endian encoding of len p followed by the payload bytes. -/
theorem store_Append_spec (s : store) (p : List Nat) (h : p.length < U64) :
    (s.Append p).2.1 = p.length + 8 ∧
    (s.Append p).2.2 = s.size ∧
    (s.Append p).1.size = s.size + (p.length + 8) ∧
    (s.Append p).1.data = s.data ++ beBytes 8 p.length ++ p ∧
    (beBytes 8 p.length).length = 8 ∧
    beVal (beBytes 8 p.length) = p.length :=
  ⟨rfl, rfl, rfl, rfl, beBytes_length 8 p.length, beVal_beBytes_8 p.length h⟩

/-- Witness for C2 on a two-byte store and a three-byte payload. -/
theorem store_Append_spec_witness :
    ([5, 6, 7] : List Nat).length < U64 ∧
    (((newStore [1, 2]).Append [5, 6, 7]).2.1 = ([5, 6, 7] : List Nat).length + 8 ∧
     ((newStore [1, 2]).Append [5, 6, 7]).2.2 = (newStore [1, 2]).size ∧
     ((newStore [1, 2]).Append [5, 6, 7]).1.size =
       (newStore [1, 2]).size + (([5, 6, 7] : List Nat).length + 8) ∧
     ((newStore [1, 2]).Append [5, 6, 7]).1.data =
       (newStore [1, 2]).data ++ beBytes 8 ([5, 6, 7] : List Nat).length ++ [5, 6, 7] ∧
     (beBytes 8 ([5, 6, 7] : List Nat).length).length = 8 ∧
     beVal (beBytes 8 ([5, 6, 7] : List Nat).length) = ([5, 6, 7] : List Nat).length) :=
  ⟨by decide, store_Append_spec (newStore [1, 2]) [5, 6, 7] (by decide)⟩

/-- C9: index.Close truncates the on-disk file to exactly size bytes (not to
maxIndexBytes, the mmap length); when size holds whole entries the resulting
file length is entryCount * 12. -/
theorem index_Close_truncates (i : index) :
    (index.Close i).length = i.size ∧
    (entWidth ∣ i.size → (index.Close i).length = i.size / entWidth * entWidth) := by
  have h : (index.Close i).length = i.size := truncateTo_length i.mmap i.size
  exact ⟨h, fun hd => by rw [h, Nat.div_mul_cancel hd]⟩

/-- Witness for C9 on an index with one valid entry inside a 24-byte mmap. -/
theorem index_Close_truncates_witness :
    entWidth ∣ (12 : Nat) ∧
    (index.Close { mmap := List.replicate 24 0, size := 12 }).length = 12 ∧
    (index.Close { mmap := List.replicate 24 0, size := 12 }).length = 12 / entWidth * entWidth :=
  ⟨by decide, (index_Close_truncates { mmap := List.replicate 24 0, size := 12 }).1,
   (index_Close_truncates { mmap := List.replicate 24 0, size := 12 }).2 (by decide)⟩

/-- C3: index.Write returns EOF exactly when size + entWidth > len(mmap); on
EOF the index (size and mmap) is unchanged; on success the four bytes at
mmap[size..size+4) hold off big-endian, the eight bytes at mmap[size+4..size+12)
hold pos big-endian, and size grows by exactly 12, preserving divisibility
by 12. -/
theorem index_Write_spec (i : index) (off pos : Nat) (hoff : off < U32) (hpos : pos < U64) :
    ((i.Write off pos).2 = some .eof ↔ i.mmap.length < i.size + entWidth) ∧
    ((i.Write off pos).2 = some .eof → (i.Write off pos).1 = i) ∧
    (i.size + entWidth ≤ i.mmap.length →
      (i.Write off pos).1.size = i.size + entWidth ∧
      (i.Write off pos).1.mmap.length = i.mmap.length ∧
      readBytes (i.Write off pos).1.mmap i.size offWidth = beBytes 4 off ∧
      beVal (readBytes (i.Write off pos).1.mmap i.size offWidth) = off ∧
      readBytes (i.Write off pos).1.mmap (i.size + offWidth) posWidth = beBytes 8 pos ∧
      beVal (readBytes (i.Write off pos).1.mmap (i.size + offWidth) posWidth) = pos) ∧
    (entWidth ∣ i.size → entWidth ∣ (i.Write off pos).1.size) := by
  have he : entWidth = 12 := rfl
  have ho : offWidth = 4 := rfl
  have hp8 : posWidth = 8 := rfl
  by_cases hfull : i.mmap.length < i.size + entWidth
  · have hw : i.Write off pos = (i, some .eof) := by
      unfold index.Write; rw [if_pos hfull]
    rw [hw]
    exact ⟨by simp [hfull], fun _ => rfl, fun hle => absurd hle (by omega), fun hd => hd⟩
  · push_neg at hfull
    have hw : i.Write off pos =
        ({ mmap := writeBytes (writeBytes i.mmap i.size (beBytes 4 off))
             (i.size + offWidth) (beBytes 8 pos), size := i.size + entWidth }, none) := by
      unfold index.Write; rw [if_neg (by omega)]
    rw [hw]
    dsimp only
    have h4 : (beBytes 4 off).length = 4 := beBytes_length 4 off
    have h8 : (beBytes 8 pos).length = 8 := beBytes_length 8 pos
    have hm1 : (writeBytes i.mmap i.size (beBytes 4 off)).length = i.mmap.length :=
      writeBytes_length _ _ _ (by omega)
    have hm2 : (writeBytes (writeBytes i.mmap i.size (beBytes 4 off))
        (i.size + offWidth) (beBytes 8 pos)).length = i.mmap.length := by
      rw [writeBytes_length _ _ _ (by omega), hm1]
    have hb4 : readBytes (writeBytes (writeBytes i.mmap i.size (beBytes 4 off))
        (i.size + offWidth) (beBytes 8 pos)) i.size offWidth = beBytes 4 off := by
      rw [readBytes_writeBytes_before _ _ _ _ _ (by omega) (by rw [hm1]; omega),
        show offWidth = (beBytes 4 off).length by omega,
        readBytes_writeBytes_at _ _ _ (by omega)]
    have hb8 : readBytes (writeBytes (writeBytes i.mmap i.size (beBytes 4 off))
        (i.size + offWidth) (beBytes 8 pos)) (i.size + offWidth) posWidth = beBytes 8 pos := by
      rw [show posWidth = (beBytes 8 pos).length by omega,
        readBytes_writeBytes_at _ _ _ (by rw [hm1]; omega)]
    constructor
    · constructor
      · intro hc
        exact absurd hc (by simp)
      · intro hlt
        omega
    constructor
    · intro hc
      exact absurd hc (by simp)
    constructor
    · intro _
      exact ⟨rfl, hm2, hb4, by rw [hb4]; exact beVal_beBytes_4 off hoff, hb8,
        by rw [hb8]; exact beVal_beBytes_8 pos hpos⟩
    · intro hd
      exact Dvd.dvd.add hd dvd_rfl

/-- Witness for C3 on an empty index with a 24-byte mmap, off = 5, pos = 7. -/
theorem index_Write_spec_witness :
    (5 < U32 ∧ 7 < U64 ∧
      ({ mmap := List.replicate 24 0, size := 0 } : index).size + entWidth ≤
        ({ mmap := List.replicate 24 0, size := 0 } : index).mmap.length) ∧
    (({ mmap := List.replicate 24 0, size := 0 } : index).Write 5 7).1.size = 0 + entWidth ∧
    beVal (readBytes (({ mmap := List.replicate 24 0, size := 0 } : index).Write 5 7).1.mmap
      0 offWidth) = 5 ∧
    beVal (readBytes (({ mmap := List.replicate 24 0, size := 0 } : index).Write 5 7).1.mmap
      (0 + offWidth) posWidth) = 7 := by
  have h := index_Write_spec { mmap := List.replicate 24 0, size := 0 } 5 7
    (by decide) (by decide)
  have h3 := h.2.2.1 (by decide)
  exact ⟨⟨by decide, by decide, by decide⟩, h3.1, h3.2.2.2.1, h3.2.2.2.2.2⟩

/-- C7: when the index is full, segment.Append fails with EOF but is not
atomic: the store has already been extended with the marshalled frame (its
size grew by 8 plus the encoding length), while the index, nextOffset and
baseOffset are unchanged. -/
theorem segment_Append_full_not_atomic (s : segment) (r : Record)
    (hfull : s.index.mmap.length < s.index.size + entWidth) :
    (s.Append r).2 = .error .eof ∧
    (s.Append r).1.store.size =
      s.store.size + (8 + (Record.marshal { r with offset := s.nextOffset }).length) ∧
    (s.Append r).1.store.data =
      s.store.data ++ beBytes 8 (Record.marshal { r with offset := s.nextOffset }).length ++
        Record.marshal { r with offset := s.nextOffset } ∧
    (s.Append r).1.index = s.index ∧
    (s.Append r).1.nextOffset = s.nextOffset ∧
    (s.Append r).1.baseOffset = s.baseOffset := by
  have happ : s.Append r =
      ({ s with store :=
        { size := s.store.size + ((Record.marshal { r with offset := s.nextOffset }).length +
            lenWidth),
          data := s.store.data ++
            beBytes 8 (Record.marshal { r with offset := s.nextOffset }).length ++
            Record.marshal { r with offset := s.nextOffset } } }, .error .eof) := by
    unfold segment.Append store.Append
    dsimp only
    rw [show s.index.Write (u32of (u64sub s.nextOffset s.baseOffset)) s.store.size =
        (s.index, some .eof) from by unfold index.Write; rw [if_pos hfull]]
  rw [happ]
  have he : lenWidth = 8 := rfl
  exact ⟨rfl, by dsimp only; omega, rfl, rfl, rfl, rfl⟩

/-- Witness for C7 on a segment whose index mmap is zero-length (full). -/
theorem segment_Append_full_not_atomic_witness :
    (fullSeg.index.mmap.length < fullSeg.index.size + entWidth) ∧
    (fullSeg.Append { value := [1], offset := 0 }).2 = .error .eof ∧
    (fullSeg.Append { value := [1], offset := 0 }).1.store.size = 17 := by
  have h := segment_Append_full_not_atomic fullSeg { value := [1], offset := 0 } (by decide)
  exact ⟨by decide, h.1, by rw [h.2.1]; decide⟩

/-- C4 (amended): index.Read(in) fails with EOF iff size = 0 or the resolved
entry's byte offset plus entWidth exceeds size, where the resolved entry is
u32(u64(size/entWidth - 1)) for in = -1 (64-bit wrap then 32-bit truncation)
and in mod 2^32 otherwise; on a fresh index with size = 0 the EOF return fires
before the underflowing subtraction is reached. -/
theorem index_Read_eof_iff (i : index) (inp : Int) :
    (i.Read inp = .error .eof ↔
      (i.size = 0 ∨ i.size <
        (if inp = -1 then u32of (u64sub (i.size / entWidth) 1) else u32ofInt inp) * entWidth +
          entWidth)) ∧
    (i.size = 0 → i.Read (-1) = .error .eof) := by
  have hN : i.size ≠ 0 → i.Read inp =
      (if i.size < (if inp = -1 then u32of (u64sub (i.size / entWidth) 1) else u32ofInt inp) *
          entWidth + entWidth then .error .eof
       else .ok (beVal (readBytes i.mmap
            ((if inp = -1 then u32of (u64sub (i.size / entWidth) 1) else u32ofInt inp) * entWidth)
            offWidth),
          beVal (readBytes i.mmap
            ((if inp = -1 then u32of (u64sub (i.size / entWidth) 1) else u32ofInt inp) * entWidth +
              offWidth) posWidth))) := by
    intro h0
    unfold index.Read
    rw [if_neg h0]
  constructor
  · by_cases h0 : i.size = 0
    · have hr : i.Read inp = .error .eof := by unfold index.Read; rw [if_pos h0]
      rw [hr]
      simp [h0]
    · rw [hN h0]
      by_cases hb : i.size < (if inp = -1 then u32of (u64sub (i.size / entWidth) 1)
          else u32ofInt inp) * entWidth + entWidth
      · rw [if_pos hb]
        exact ⟨fun _ => Or.inr hb, fun _ => rfl⟩
      · rw [if_neg hb]
        refine ⟨fun hc => absurd hc (by simp), fun hor => ?_⟩
        rcases hor with h | h
        · exact absurd h h0
        · exact absurd h hb
  · intro h0
    unfold index.Read
    rw [if_pos h0]

/-- C4 counterexample: with one valid entry (size 12) and in = 2^32, the Go
uint32 conversion truncates in to 0, so Read succeeds, while the claim (which
resolves the entry as in itself) predicts EOF: the stated iff fails. -/
theorem index_Read_eof_iff_cex :
    ¬ ((index.Read { mmap := List.replicate 24 0, size := 12 } 4294967296 = .error .eof) ↔
      (({ mmap := List.replicate 24 0, size := 12 } : index).size = 0 ∨
       ({ mmap := List.replicate 24 0, size := 12 } : index).size <
         4294967296 * entWidth + entWidth)) := by
  decide

/-- Witness for C4 on a fresh (size 0) index and in = -1. -/
theorem index_Read_eof_iff_witness :
    (({ mmap := List.replicate 24 0, size := 0 } : index).size = 0) ∧
    index.Read { mmap := List.replicate 24 0, size := 0 } (-1) = .error .eof :=
  ⟨rfl, (index_Read_eof_iff { mmap := List.replicate 24 0, size := 0 } (-1)).2 rfl⟩

/-- C8 (amended): for 0 <= in < 2^32, on an index whose entries store their own
ordinal as rel_offset (as segment appends produce), a successful Read(in)
returns out = in.  In general the returned out is the stored rel_offset of
entry (in mod 2^32), so it can differ from in even when in is not -1. -/
theorem index_Read_out_eq_in (i : index) (inp : Int) (out pos : Nat)
    (h0 : 0 ≤ inp) (h32 : inp < (U32 : Int))
    (hwf : ∀ k, k < i.size / entWidth → entryRel i.mmap k = k)
    (hr : i.Read inp = .ok (out, pos)) :
    out = inp.toNat := by
  have he : entWidth = 12 := rfl
  have h0' : i.size ≠ 0 := by
    intro h
    unfold index.Read at hr
    rw [if_pos h] at hr
    exact absurd hr (by simp)
  unfold index.Read at hr
  rw [if_neg h0'] at hr
  have hne : inp ≠ -1 := by omega
  have hin : u32ofInt inp = inp.toNat := by
    unfold u32ofInt
    rw [Int.emod_eq_of_lt h0 (by exact_mod_cast h32)]
  rw [if_neg hne, hin] at hr
  by_cases hb : i.size < inp.toNat * entWidth + entWidth
  · rw [if_pos hb] at hr
    exact absurd hr (by simp)
  · rw [if_neg hb] at hr
    simp only [Except.ok.injEq, Prod.mk.injEq] at hr
    have hk : inp.toNat < i.size / entWidth := by
      rw [he] at hb ⊢
      omega
    rw [← hr.1]
    exact hwf inp.toNat hk

/-- C8 counterexample: an index whose single entry stores rel_offset 7; Read(0)
succeeds and returns out = 7, not the caller's in = 0, so out differs from in
even though in is not -1. -/
theorem index_Read_out_eq_in_cex :
    index.Read { mmap := beBytes 4 7 ++ beBytes 8 3 ++ List.replicate 12 0, size := 12 } 0 =
      .ok (7, 3) ∧ (7 : Nat) ≠ 0 := by
  decide

/-- Witness for C8 on a well-formed one-entry index and in = 0. -/
theorem index_Read_out_eq_in_witness :
    ((0 : Int) ≤ 0 ∧ (0 : Int) < (U32 : Int) ∧
      (∀ k, k < ({ mmap := List.replicate 24 0, size := 12 } : index).size / entWidth →
        entryRel ({ mmap := List.replicate 24 0, size := 12 } : index).mmap k = k) ∧
      index.Read { mmap := List.replicate 24 0, size := 12 } 0 = .ok (0, 0)) ∧
    (0 : Nat) = (0 : Int).toNat :=
  ⟨⟨le_refl 0, by decide, by decide, by decide⟩,
    index_Read_out_eq_in { mmap := List.replicate 24 0, size := 12 } 0 0 0 (le_refl 0)
      (by decide) (by decide) (by decide)⟩

/-- C1: from a fresh segment at baseOffset, a sequence of appends returns the
consecutive offsets baseOffset, baseOffset + 1, ..., and a subsequent Read of
any assigned offset k returns a record whose value equals the appended record's
value and whose offset equals k, under the machine-range side conditions
(baseOffset clear of uint64 wrap-around, mmap capacity within the uint32
relative-offset range, index room for all appends, store file within the
uint64 position space). -/
theorem segment_append_read_roundtrip (base maxIdx : Nat) (vs : List (List Nat))
    (h1 : base + U32 ≤ U64) (h2 : maxIdx ≤ entWidth * U32)
    (h3 : vs.length * entWidth ≤ maxIdx) (h4 : framesLen vs ≤ U64) :
    (appendAllR (newSegment base [] [] maxIdx) vs).2 =
      (List.range vs.length).map (fun i => Except.ok (base + i)) ∧
    ∀ k, (hk : k < vs.length) →
      (appendAllR (newSegment base [] [] maxIdx) vs).1.Read (base + k) =
        .ok { value := vs.get ⟨k, hk⟩, offset := base + k } := by
  have hInv0 := Inv_newSegment base maxIdx h1 h2
  have hml : (newSegment base [] [] maxIdx).index.mmap.length = maxIdx :=
    truncateTo_length [] maxIdx
  have hdl : (newSegment base [] [] maxIdx).store.data.length = 0 := rfl
  have hbase : (newSegment base [] [] maxIdx).baseOffset = base := rfl
  have hall := appendAll_inv vs [] (newSegment base [] [] maxIdx) hInv0
    (by
      rw [hml]
      simp only [List.length_nil, Nat.zero_add]
      exact h3)
    (by
      rw [hdl]
      omega)
  constructor
  · rw [hall.1]
    apply List.map_congr_left
    intro i _
    rw [hbase]
    simp only [List.length_nil, Nat.add_zero]
  · intro k hk
    have hInvf := hall.2.1
    rw [List.nil_append] at hInvf
    have hres := Inv_read _ vs hInvf k hk
    have hbf : (appendAllR (newSegment base [] [] maxIdx) vs).1.baseOffset = base :=
      hall.2.2.trans hbase
    rw [hbf] at hres
    exact hres

/-- Witness for C1: two appends on a fresh segment at base offset 5 with a
24-byte index mmap; offsets 5 and 6 are assigned and both records read back. -/
theorem segment_append_read_roundtrip_witness :
    (5 + U32 ≤ U64 ∧ 24 ≤ entWidth * U32 ∧
      ([[1], [2]] : List (List Nat)).length * entWidth ≤ 24 ∧
      framesLen [[1], [2]] ≤ U64) ∧
    (appendAllR (newSegment 5 [] [] 24) [[1], [2]]).2 = [Except.ok 5, Except.ok 6] ∧
    (appendAllR (newSegment 5 [] [] 24) [[1], [2]]).1.Read 5 =
      .ok { value := [1], offset := 5 } ∧
    (appendAllR (newSegment 5 [] [] 24) [[1], [2]]).1.Read 6 =
      .ok { value := [2], offset := 6 } := by
  have h := segment_append_read_roundtrip 5 24 [[1], [2]] (by decide) (by decide)
    (by decide) (by decide)
  refine ⟨⟨by decide, by decide, by decide, by decide⟩, ?_, ?_, ?_⟩
  · rw [h.1]
    rfl
  · exact h.2 0 (by decide)
  · exact h.2 1 (by decide)

/-- C5: the invariant nextOffset = baseOffset + index.size / entWidth is
established by newSegment (seeding from the index's last entry, or baseOffset
on an empty index, given a well-formed existing index file) and preserved by
segment.Append whether the call succeeds or fails. -/
theorem segment_nextOffset_invariant :
    (∀ (base : Nat) (storeFile indexFile : List Nat) (maxIdx : Nat),
      indexFile.length ≤ maxIdx →
      indexFile.length ≤ entWidth * U32 →
      entWidth ∣ indexFile.length →
      (0 < indexFile.length →
        entryRel indexFile (indexFile.length / entWidth - 1) =
          indexFile.length / entWidth - 1) →
      (newSegment base storeFile indexFile maxIdx).nextOffset =
        (newSegment base storeFile indexFile maxIdx).baseOffset +
          (newSegment base storeFile indexFile maxIdx).index.size / entWidth) ∧
    (∀ (s : segment) (r : Record),
      s.nextOffset = s.baseOffset + s.index.size / entWidth →
      (s.Append r).1.nextOffset =
        (s.Append r).1.baseOffset + (s.Append r).1.index.size / entWidth) := by
  constructor
  · intro base sf f maxIdx hle hbound hdvd hlast
    have he : entWidth = 12 := rfl
    have ho : offWidth = 4 := rfl
    have h32 := U32_eq
    have hbase : (newSegment base sf f maxIdx).baseOffset = base := rfl
    have hsize : (newSegment base sf f maxIdx).index.size = f.length := rfl
    by_cases h0 : f.length = 0
    · have hread : (newIndex f maxIdx).Read (-1) = .error .eof := by
        unfold index.Read newIndex
        dsimp only
        rw [if_pos h0]
      have hnext : (newSegment base sf f maxIdx).nextOffset = base := by
        unfold newSegment
        dsimp only
        rw [hread]
      rw [hnext, hbase, hsize, h0]
      simp
    · obtain ⟨c, hc⟩ := hdvd
      have hc12 : f.length = 12 * c := by rw [hc, he]
      have hn1 : 1 ≤ f.length / entWidth := by rw [he]; omega
      have hnle : f.length / entWidth ≤ U32 := by
        have hb12 : f.length ≤ 12 * U32 := by rw [← he]; exact hbound
        rw [he]
        omega
      have hszn : (newIndex f maxIdx).size = f.length / entWidth * entWidth := by
        show f.length = _
        rw [he]
        omega
      have hread := index_Read_neg_one (newIndex f maxIdx) (f.length / entWidth) hszn hn1 hnle
      have hagree : entryRel (newIndex f maxIdx).mmap (f.length / entWidth - 1) =
          entryRel f (f.length / entWidth - 1) := by
        unfold entryRel newIndex
        dsimp only
        exact congrArg beVal (readBytes_truncateTo f maxIdx _ _
          (by simp only [he, ho]; omega) hle)
      have hnext : (newSegment base sf f maxIdx).nextOffset =
          base + entryRel (newIndex f maxIdx).mmap (f.length / entWidth - 1) + 1 := by
        unfold newSegment
        dsimp only
        rw [hread]
      rw [hnext, hagree, hlast (Nat.pos_of_ne_zero h0), hbase, hsize]
      omega
  · intro s r hinv
    have he : entWidth = 12 := rfl
    by_cases hfull : s.index.mmap.length < s.index.size + entWidth
    · rw [segment_Append_full_eq s r hfull]
      dsimp only
      exact hinv
    · push_neg at hfull
      rw [segment_Append_success_eq s r hfull]
      dsimp only
      rw [hinv, show (s.index.size + entWidth) / entWidth = s.index.size / entWidth + 1 from
        by rw [he]; omega]
      omega

/-- Witness for C5: establishment on a one-entry index file (rel 0, pos 0) at
base offset 3, and preservation across one append on a fresh segment. -/
theorem segment_nextOffset_invariant_witness :
    ((beBytes 4 0 ++ beBytes 8 0 : List Nat).length ≤ 24 ∧
      (beBytes 4 0 ++ beBytes 8 0 : List Nat).length ≤ entWidth * U32 ∧
      entWidth ∣ (beBytes 4 0 ++ beBytes 8 0 : List Nat).length ∧
      (0 < (beBytes 4 0 ++ beBytes 8 0 : List Nat).length →
        entryRel (beBytes 4 0 ++ beBytes 8 0) ((beBytes 4 0 ++ beBytes 8 0 :
          List Nat).length / entWidth - 1) =
        (beBytes 4 0 ++ beBytes 8 0 : List Nat).length / entWidth - 1)) ∧
    (newSegment 3 [] (beBytes 4 0 ++ beBytes 8 0) 24).nextOffset =
      (newSegment 3 [] (beBytes 4 0 ++ beBytes 8 0) 24).baseOffset +
        (newSegment 3 [] (beBytes 4 0 ++ beBytes 8 0) 24).index.size / entWidth ∧
    ((newSegment 3 [] [] 24).Append { value := [7], offset := 0 }).1.nextOffset =
      ((newSegment 3 [] [] 24).Append { value := [7], offset := 0 }).1.baseOffset +
        ((newSegment 3 [] [] 24).Append { value := [7], offset := 0 }).1.index.size /
          entWidth :=
  ⟨⟨by decide, by decide, by decide, by decide⟩,
    segment_nextOffset_invariant.1 3 [] (beBytes 4 0 ++ beBytes 8 0) 24
      (by decide) (by decide) (by decide) (by decide),
    segment_nextOffset_invariant.2 (newSegment 3 [] [] 24) { value := [7], offset := 0 }
      (by decide)⟩

/-- C6: on a segment holding at least one record with baseOffset at least 1,
Read(baseOffset - 1) does not fail: the uint64 subtraction wraps to the int64
value -1, which index.Read treats as the last-entry request, so the call
returns the last record of the segment. -/
theorem segment_Read_pred_base (s : segment) (vs : List (List Nat)) (w : List Nat)
    (h : Inv s vs) (hb1 : 1 ≤ s.baseOffset) (hw : vs.getLast? = some w) :
    s.Read (s.baseOffset - 1) =
      .ok { value := w, offset := s.baseOffset + (vs.length - 1) } := by
  obtain ⟨hb, hm, hn, hsz, hst, hlen, hent⟩ := h
  have he : entWidth = 12 := rfl
  have h32 := U32_eq
  have h64 := U64_eq
  have hne : vs ≠ [] := by
    intro hnil
    rw [hnil] at hw
    simp at hw
  have hlpos : 0 < vs.length := List.length_pos.mpr hne
  have hget : vs.get ⟨vs.length - 1, by omega⟩ = w := by
    have hg1 : vs[vs.length - 1]? = some w := by
      rw [← List.getLast?_eq_getElem?]
      exact hw
    rw [List.getElem?_eq_getElem (by omega)] at hg1
    have hg2 := Option.some.inj hg1
    rw [List.get_eq_getElem]
    exact hg2
  have hsub : u64sub (s.baseOffset - 1) s.baseOffset = U64 - 1 :=
    u64sub_pred s.baseOffset hb1 (by omega)
  unfold segment.Read
  rw [hsub, toInt64_last]
  rw [index_Read_neg_one s.index vs.length hsz hlpos hlen]
  dsimp only
  obtain ⟨hrelk, hreadk⟩ := hent (vs.length - 1) (by omega)
  rw [hreadk]
  dsimp only
  rw [unmarshal_marshal _ (by dsimp only; omega)]
  rw [hget]

/-- Witness for C6: a segment at base offset 5 holding one record; reading
offset 4 = baseOffset - 1 returns that (last) record instead of an error. -/
theorem segment_Read_pred_base_witness :
    (Inv (appendAllR (newSegment 5 [] [] 24) [[9]]).1 [[9]] ∧
      1 ≤ (appendAllR (newSegment 5 [] [] 24) [[9]]).1.baseOffset ∧
      ([[9]] : List (List Nat)).getLast? = some [9]) ∧
    (appendAllR (newSegment 5 [] [] 24) [[9]]).1.Read
        ((appendAllR (newSegment 5 [] [] 24) [[9]]).1.baseOffset - 1) =
      .ok { value := [9],
            offset := (appendAllR (newSegment 5 [] [] 24) [[9]]).1.baseOffset +
              (([[9]] : List (List Nat)).length - 1) } :=
  ⟨⟨by decide, by decide, by decide⟩,
    segment_Read_pred_base (appendAllR (newSegment 5 [] [] 24) [[9]]).1 [[9]] [9]
      (by decide) (by decide) (by decide)⟩

end KLog
